import Mathlib

/-! Verification development for the cache-buster scanning and eviction engine
(internal/cache scanner and trimmer, internal/provider strategies).

The Go sources are modelled as pure Lean functions.  Effects are made
explicit: the filesystem is a value, the clock is an argument, subprocess
and os.Remove outcomes are supplied as functions, and the cancellation
context is a per-iteration boolean signal.  Go's int64 values (sizes,
byte counts, timestamps) are modelled as Int; the magnitudes involved in
these claims never approach 2^63, so wrap-around is not modelled.
-/

namespace CacheBuster

/-- Raw OS-level errors that the engine distinguishes via errors.Is, plus a
catch-all for everything else.  These stand for the Go values
os.ErrPermission, os.ErrNotExist, syscall.EBUSY, syscall.ETXTBSY. -/
inductive GoErr where
  | errPermission
  | errNotExist
  | ebusy
  | etxtbsy
  | other (msg : String)
deriving DecidableEq, Repr

/-- Stable reason codes of internal/cache (ReasonPermissionDenied,
ReasonNotFound, ReasonFileLocked, ReasonUnknown). -/
inductive Reason where
  | permissionDenied
  | notFound
  | fileLocked
  | unknown
deriving DecidableEq, Repr

/-- AccessError from internal/cache: one classified access warning.
The err field keeps the underlying cause (none when classifying a nil
error defensively). -/
structure AccessError where
  path : String
  reason : Reason
  err : Option GoErr
deriving DecidableEq, Repr

/-- ClassifyError from internal/cache: deterministic stateless mapping of a
raw error and path to a stable reason code.  A nil error yields the unknown
reason with no recorded cause, exactly as in the Go switch. -/
def ClassifyError (path : String) (err : Option GoErr) : AccessError :=
  match err with
  | none => { path := path, reason := .unknown, err := none }
  | some e =>
    let reason :=
      match e with
      | .errPermission => Reason.permissionDenied
      | .errNotExist => Reason.notFound
      | .ebusy => Reason.fileLocked
      | .etxtbsy => Reason.fileLocked
      | .other _ => Reason.unknown
    { path := path, reason := reason, err := some e }

/-- FileInfo from internal/cache: metadata snapshot of one regular file.
ModTime is an integer timestamp (nanoseconds since epoch in Go). -/
structure FileInfo where
  modTime : Int
  path : String
  size : Int
deriving DecidableEq, Repr

mutual

/-- One node of the modelled directory tree, as filepath.WalkDir observes it.
A file whose DirEntry.Info call fails is fileInfoErr; a directory whose
ReadDir fails mid-traversal is dirErr (it exposes no children, matching
WalkDir, which cannot descend into it).  A symlink records only the size of
its target, which the scanner must never read. -/
inductive FSNode where
  | file (size : Int) (modTime : Int)
  | fileInfoErr (e : GoErr)
  | symlink (targetSize : Int)
  | dirErr (e : GoErr)
  | dir (entries : FSEntries)

/-- Named children of a directory, in the order WalkDir visits them. -/
inductive FSEntries where
  | nil
  | cons (name : String) (node : FSNode) (rest : FSEntries)

end

/-- Accumulated outcome of one traversal: total byte count, collected file
entries and classified warnings, in visit order. -/
structure Walked where
  size : Int
  files : List FileInfo
  warnings : List AccessError
deriving DecidableEq, Repr

/-- Walked.empty is the zero contribution. -/
def Walked.empty : Walked := ⟨0, [], []⟩

/-- Walked.append combines the contributions of two traversal segments. -/
def Walked.append (a b : Walked) : Walked :=
  ⟨a.size + b.size, a.files ++ b.files, a.warnings ++ b.warnings⟩

mutual

/-- walkNode models the WalkDir callback shared by CalculateSize and
ListFiles (internal/cache scanner): a traversal error carried by the walk is
skipped silently when it is ErrNotExist and otherwise classified into a
warning (the walk continues either way, since the callback returns nil); a
directory or symlink contributes nothing before any metadata is read; a
DirEntry.Info failure is always classified into a warning; a regular file
contributes its size and its FileInfo entry. -/
def walkNode (path : String) : FSNode → Walked
  | .file s m => ⟨s, [⟨m, path, s⟩], []⟩
  | .fileInfoErr e => ⟨0, [], [ClassifyError path (some e)]⟩
  | .symlink _ => Walked.empty
  | .dirErr e =>
    if e = .errNotExist then Walked.empty
    else ⟨0, [], [ClassifyError path (some e)]⟩
  | .dir es => walkEntries path es

/-- walkEntries walks the children of a directory in order, joining paths
with a separator as filepath.Join does for the clean relative names
produced by ReadDir. -/
def walkEntries (path : String) : FSEntries → Walked
  | .nil => Walked.empty
  | .cons name node rest =>
    Walked.append (walkNode (path ++ "/" ++ name) node) (walkEntries path rest)

end

/-- FS maps a root path to its tree; none means the root does not exist, so
WalkDir's initial stat fails with ErrNotExist. -/
def FS := String → Option FSNode

/-- walkRoot models WalkDir over one root: a missing root reaches the
callback as an ErrNotExist traversal error and is skipped silently. -/
def walkRoot (fs : FS) (r : String) : Walked :=
  match fs r with
  | none => Walked.empty
  | some n => walkNode r n

/-- scanRoots joins the per-root traversals.  In Go the roots are walked
concurrently and the shared warning slice is appended to under a mutex, so
the interleaving across roots is scheduler-dependent; the model fixes root
order, which none of the claims here distinguish. -/
def scanRoots (fs : FS) : List String → Walked
  | [] => Walked.empty
  | r :: rest => Walked.append (walkRoot fs r) (scanRoots fs rest)

/-- ScanResult from internal/cache: aggregate size plus warnings. -/
structure ScanResult where
  warnings : List AccessError
  size : Int
deriving DecidableEq, Repr

/-- CalculateSize from internal/cache (scanner): sums the sizes of all
regular files under the given roots.  The Go function's error result is
always nil because the walk callback never aborts, so it is omitted. -/
def CalculateSize (fs : FS) (paths : List String) : ScanResult :=
  let w := scanRoots fs paths
  ⟨w.warnings, w.size⟩

/-- ListResult from internal/cache: enumerated files plus warnings. -/
structure ListResult where
  files : List FileInfo
  warnings : List AccessError
deriving DecidableEq, Repr

/-- ListFiles from internal/cache (scanner): same traversal as
CalculateSize, collecting per-file metadata instead of summing. -/
def ListFiles (fs : FS) (paths : List String) : ListResult :=
  let w := scanRoots fs paths
  ⟨w.files, w.warnings⟩

/-- sumSizes is the total byte count of a list of file entries. -/
def sumSizes (l : List FileInfo) : Int :=
  (l.map FileInfo.size).sum

mutual

/-- Specification-side collector: exactly the regular files reachable in a
tree, written independently of the walk's size and warning bookkeeping.
Only the file constructor produces entries, so directories, symlinks and
unreadable or unstattable entries never appear. -/
def regularFilesNode (path : String) : FSNode → List FileInfo
  | .file s m => [⟨m, path, s⟩]
  | .dir es => regularFilesEntries path es
  | .fileInfoErr _ => []
  | .symlink _ => []
  | .dirErr _ => []

/-- Specification-side collector over directory children. -/
def regularFilesEntries (path : String) : FSEntries → List FileInfo
  | .nil => []
  | .cons name node rest =>
    regularFilesNode (path ++ "/" ++ name) node ++ regularFilesEntries path rest

end

/-- regularFilesRoots collects the regular files under every root. -/
def regularFilesRoots (fs : FS) : List String → List FileInfo
  | [] => []
  | r :: rest =>
    (match fs r with
     | none => []
     | some n => regularFilesNode r n) ++ regularFilesRoots fs rest

/-- TrimOptions from internal/cache/trimmer.go.  MaxAge is a duration in the
same integer time unit as FileInfo.modTime. -/
structure TrimOptions where
  maxSize : Int
  maxAge : Int
  dryRun : Bool
deriving DecidableEq, Repr

/-- Output summary of a trim run.  The Go code builds one string; the model
keeps the structure of that string (which template, which per-file lines in
which order) and abstracts the human-readable size and age formatting of a
"would delete" line down to the file's path. -/
inductive TrimOutput where
  | empty
  | noFiles
  | interrupted
  | wouldDelete (paths : List String)
  | deleted (count : Int)
deriving DecidableEq, Repr

/-- TrimResult from internal/cache/trimmer.go. -/
structure TrimResult where
  output : TrimOutput
  errors : List AccessError
  deletedCount : Int
  freedBytes : Int
deriving DecidableEq, Repr

/-- Call-level failures of Trim: a scan failure propagated from ListFiles,
or the cancellation error from the context. -/
inductive TrimErr where
  | scanFailed (e : GoErr)
  | canceled
deriving DecidableEq, Repr

/-- insertFile places a file into a list that is ascending by modification
time, keeping it ascending. -/
def insertFile (f : FileInfo) : List FileInfo → List FileInfo
  | [] => [f]
  | g :: rest =>
    if f.modTime ≤ g.modTime then f :: g :: rest else g :: insertFile f rest

/-- sortFiles models the sort.Slice call in Trim: ascending by ModTime
(oldest first).  Go's sort.Slice is unstable, so the relative order of files
with equal ModTime is unspecified there; the model fixes the stable order,
and no claim below distinguishes equal-ModTime arrangements beyond being
ascending. -/
def sortFiles : List FileInfo → List FileInfo
  | [] => []
  | f :: rest => insertFile f (sortFiles rest)

/-- targetOf is the effective eviction target of Trim:
targetSize = int64(float64(opts.MaxSize) * trimBufferFactor) with
trimBufferFactor = 0.9.  The model computes the truncation of
9 * maxSize / 10 in exact arithmetic, which agrees with the Go float64
computation for every magnitude a cache size can take (below 2^52). -/
def targetOf (opts : TrimOptions) : Int :=
  Int.tdiv (9 * opts.maxSize) 10

/-- phaseA is Trim's phase 1 over the sorted file list: every file whose
modification time precedes the cutoff is marked for deletion. -/
def phaseA (cutoff : Int) (sorted : List FileInfo) : List FileInfo :=
  sorted.filter (fun f => decide (f.modTime < cutoff))

/-- phaseBCandidates is the remaining slice Trim builds for phase 2: the
files of the sorted list not already marked in phase 1. -/
def phaseBCandidates (cutoff : Int) (sorted : List FileInfo) : List FileInfo :=
  sorted.filter (fun f => !decide (f.modTime < cutoff))

/-- phaseBGo is Trim's phase 2 loop: walk the candidates, marking each and
subtracting its size from the running remaining total, breaking as soon as
the remaining total is at or below the target. -/
def phaseBGo (target : Int) : Int → List FileInfo → List FileInfo
  | _, [] => []
  | rem, f :: fs =>
    if rem ≤ target then [] else f :: phaseBGo target (rem - f.size) fs

/-- toDeleteList is the deletion plan Trim computes before executing:
sort ascending by ModTime, mark by age, then, if the unmarked total still
exceeds the target, mark oldest remaining files until it does not. -/
def toDeleteList (now : Int) (opts : TrimOptions) (files : List FileInfo) :
    List FileInfo :=
  let sorted := sortFiles files
  let cutoff := now - opts.maxAge
  let target := targetOf opts
  let tA := phaseA cutoff sorted
  let rem := sumSizes (phaseBCandidates cutoff sorted)
  if rem > target then tA ++ phaseBGo target rem (phaseBCandidates cutoff sorted)
  else tA

/-- Mutable state of Trim's execution loop: accumulated freed bytes and
deleted count, the deleteErrors slice (seeded with the scan warnings), and
the "would delete" lines of a dry run (abstracted to paths). -/
structure ExecState where
  freedBytes : Int
  deletedCount : Int
  deleteErrors : List AccessError
  wouldLines : List String
deriving DecidableEq, Repr

/-- runDeletions is Trim's execution loop.  Before each candidate the
context is polled (ctxDone i for the i-th iteration); if it has fired the
loop stops, returning the state so far and an interrupted flag.  A dry run
only accounts; a real run consults removeErr (the outcome of os.Remove for
that path), classifying a failure into deleteErrors and continuing, and
accounting on success. -/
def runDeletions (dryRun : Bool) (removeErr : String → Option GoErr)
    (ctxDone : Nat → Bool) : Nat → ExecState → List FileInfo → ExecState × Bool
  | _, st, [] => (st, false)
  | i, st, f :: rest =>
    if ctxDone i then (st, true)
    else if dryRun then
      runDeletions dryRun removeErr ctxDone (i + 1)
        { st with
            wouldLines := st.wouldLines ++ [f.path],
            freedBytes := st.freedBytes + f.size,
            deletedCount := st.deletedCount + 1 } rest
    else
      match removeErr f.path with
      | some e =>
        runDeletions dryRun removeErr ctxDone (i + 1)
          { st with
              deleteErrors := st.deleteErrors ++ [ClassifyError f.path (some e)] }
          rest
      | none =>
        runDeletions dryRun removeErr ctxDone (i + 1)
          { st with
              freedBytes := st.freedBytes + f.size,
              deletedCount := st.deletedCount + 1 } rest

/-- Trim from internal/cache/trimmer.go.  The enumeration is supplied as a
ListResult plus the scanner's error result (scanErr, always nil for the
modelled scanner but kept for the early-return branch); now is the clock
reading used for the age cutoff; removeErr gives the outcome of os.Remove
per path; ctxDone is the cancellation signal polled once per candidate.
On the cancellation return path the Go code assigns only result.Output, so
the returned Errors field is the zero value (empty) there; deleteErrors is
attached to the result only on the normal non-dry-run completion path. -/
def Trim (listResult : ListResult) (scanErr : Option GoErr) (now : Int)
    (opts : TrimOptions) (removeErr : String → Option GoErr)
    (ctxDone : Nat → Bool) : TrimResult × Option TrimErr :=
  match scanErr with
  | some e => (⟨.empty, [], 0, 0⟩, some (.scanFailed e))
  | none =>
    if listResult.files = [] then
      (⟨.noFiles, listResult.warnings, 0, 0⟩, none)
    else
      let toDelete := toDeleteList now opts listResult.files
      let st0 : ExecState := ⟨0, 0, listResult.warnings, []⟩
      let out := runDeletions opts.dryRun removeErr ctxDone 0 st0 toDelete
      if out.2 then
        (⟨.interrupted, [], out.1.deletedCount, out.1.freedBytes⟩, some .canceled)
      else if opts.dryRun then
        (⟨.wouldDelete out.1.wouldLines, [], out.1.deletedCount, out.1.freedBytes⟩,
          none)
      else
        (⟨.deleted out.1.deletedCount, out.1.deleteErrors, out.1.deletedCount,
          out.1.freedBytes⟩, none)

/-- Specification-side Phase B greedy walk, following the claim's words:
take candidates in the given ascending order, each taken one subtracting
its size from the remaining total, until the remaining total is at most the
target or no candidates remain. -/
def specGreedy (target : Int) : Int → List FileInfo → List FileInfo
  | _, [] => []
  | rem, f :: fs =>
    if rem ≤ target then [] else f :: specGreedy target (rem - f.size) fs

/-- Specification-side Phase B, following the claim's words: if the total
size of the unmarked candidates exceeds the target, greedily mark oldest
candidates until the unmarked total drops to the target or below. -/
def specPhaseB (target : Int) (cand : List FileInfo) : List FileInfo :=
  if sumSizes cand > target then specGreedy target (sumSizes cand) cand else []

/-- CleanMode from internal/provider: full or smart cleaning strategy. -/
inductive CleanMode where
  | full
  | smart
deriving DecidableEq, Repr

/-- CleanOptions from internal/provider. -/
structure CleanOptions where
  dryRun : Bool
  mode : CleanMode
deriving DecidableEq, Repr

/-- CleanResult from internal/provider. -/
structure CleanResult where
  output : String
  bytesCleaned : Int
  filesDeleted : Int
deriving DecidableEq, Repr

/-- CurrentSize from internal/provider/base.go (BaseProvider): the aggregate
size of the provider's paths via the scanner.  It consults nothing but the
filesystem — in particular not any availability probe.  The Go method also
forwards the scanner's error result, which the modelled scanner never
produces. -/
def CurrentSize (fs : FS) (paths : List String) : Int :=
  (CalculateSize fs paths).size

/-- Outcome of shell-quote-splitting a configured command string.  The
splitting itself is an external collaborator (go-shellquote); only its
outcome reaches the provider code. -/
inductive ParsedCmd where
  | failed (e : GoErr)
  | argv (parts : List String)
deriving DecidableEq, Repr

/-- Environment of one provider Clean call: the availability probe's answer,
the filesystem as measured before and after the external command (the
command mutates the cache, and nothing stops the cache from growing during
the run), and the outcome and combined trimmed output text of running a
given argv. -/
structure CleanEnv where
  available : Bool
  fsBefore : FS
  fsAfter : FS
  runErr : List String → Option GoErr
  runOutput : List String → String

/-- DockerProvider/CommandProvider state: resolved paths, configured size
limit, and the configured clean command with its split outcome. -/
structure CmdProvider where
  paths : List String
  maxSize : Int
  cleanCmd : String
  parsedCleanCmd : ParsedCmd

/-- fullClean from internal/provider/command.go (CommandProvider): dry runs
echo the command; otherwise measure size, split the command string (a split
failure is a call-level error), run it (a non-zero exit is a call-level
error carrying the captured output), measure size again and report the
clamped delta. -/
def commandFullClean (env : CleanEnv) (p : CmdProvider) (opts : CleanOptions) :
    CleanResult × Option GoErr :=
  if opts.dryRun then (⟨"would run: " ++ p.cleanCmd, 0, 0⟩, none)
  else
    let sizeBefore := CurrentSize env.fsBefore p.paths
    match p.parsedCleanCmd with
    | .failed e => (⟨"", 0, 0⟩, some e)
    | .argv [] => (⟨"", 0, 0⟩, none)
    | .argv parts =>
      let output := env.runOutput parts
      match env.runErr parts with
      | some e => (⟨output, 0, 0⟩, some e)
      | none =>
        let sizeAfter := CurrentSize env.fsAfter p.paths
        let bytesCleaned := sizeBefore - sizeAfter
        let bytesCleaned := if bytesCleaned < 0 then 0 else bytesCleaned
        (⟨output, bytesCleaned, 0⟩, none)

/-- dockerSmartCmd is the fixed argv of DockerProvider.smartClean; the
keep-storage argument renders the configured limit. -/
def dockerSmartCmd (p : CmdProvider) : List String :=
  ["docker", "buildx", "prune", "-af", "--keep-storage=" ++ toString p.maxSize]

/-- smartClean from internal/provider/docker.go: size-capped buildx prune,
measuring freed bytes as the clamped before/after size delta. -/
def dockerSmartClean (env : CleanEnv) (p : CmdProvider) (opts : CleanOptions) :
    CleanResult × Option GoErr :=
  if opts.dryRun then (⟨"would run: docker buildx prune", 0, 0⟩, none)
  else
    let sizeBefore := CurrentSize env.fsBefore p.paths
    let output := env.runOutput (dockerSmartCmd p)
    match env.runErr (dockerSmartCmd p) with
    | some e => (⟨output, 0, 0⟩, some e)
    | none =>
      let sizeAfter := CurrentSize env.fsAfter p.paths
      let bytesCleaned := sizeBefore - sizeAfter
      let bytesCleaned := if bytesCleaned < 0 then 0 else bytesCleaned
      (⟨output, bytesCleaned, 0⟩, none)

/-- fullClean from internal/provider/docker.go: identical in structure to
the command-backed fullClean. -/
def dockerFullClean (env : CleanEnv) (p : CmdProvider) (opts : CleanOptions) :
    CleanResult × Option GoErr :=
  if opts.dryRun then (⟨"would run: " ++ p.cleanCmd, 0, 0⟩, none)
  else
    let sizeBefore := CurrentSize env.fsBefore p.paths
    match p.parsedCleanCmd with
    | .failed e => (⟨"", 0, 0⟩, some e)
    | .argv [] => (⟨"", 0, 0⟩, none)
    | .argv parts =>
      let output := env.runOutput parts
      match env.runErr parts with
      | some e => (⟨output, 0, 0⟩, some e)
      | none =>
        let sizeAfter := CurrentSize env.fsAfter p.paths
        let bytesCleaned := sizeBefore - sizeAfter
        let bytesCleaned := if bytesCleaned < 0 then 0 else bytesCleaned
        (⟨output, bytesCleaned, 0⟩, none)

/-- Clean from internal/provider/docker.go (DockerProvider): every clean
first runs the availability probe; when the daemon is unavailable it
returns the neutral "docker not available" result with a nil error,
otherwise it dispatches on the mode. -/
def dockerClean (env : CleanEnv) (p : CmdProvider) (opts : CleanOptions) :
    CleanResult × Option GoErr :=
  if !env.available then (⟨"docker not available", 0, 0⟩, none)
  else if opts.mode = .smart then dockerSmartClean env p opts
  else dockerFullClean env p opts

/-- dockerCurrentSize is DockerProvider's CurrentSize: the method is
inherited unchanged from BaseProvider, so it reads the filesystem directly
and performs no availability check. -/
def dockerCurrentSize (env : CleanEnv) (p : CmdProvider) : Int :=
  CurrentSize env.fsBefore p.paths

/-- splitDots models strings.Split(v, ".") on the character list: the empty
string yields one empty group, and each dot opens a new group. -/
def splitDots : List Char → List (List Char)
  | [] => [[]]
  | c :: rest =>
    if c = '.' then [] :: splitDots rest
    else
      match splitDots rest with
      | [] => [[c]]
      | g :: gs => (c :: g) :: gs

/-- digitsVal is the numeric value of a digit string, most significant
first. -/
def digitsVal (cs : List Char) : Int :=
  cs.foldl (fun acc c => acc * 10 + (Int.ofNat (c.toNat - '0'.toNat))) 0

/-- atoiChars models strconv.Atoi as used in compareVersions: an optional
sign followed by at least one digit parses to its value, and any
syntactically invalid segment leaves the Go variable at its zero value
because the error is discarded (n, _ = strconv.Atoi(part)).  The 64-bit
range clamp of Atoi is not modelled; version segments are four digits or
fewer. -/
def atoiChars (cs : List Char) : Int :=
  match cs with
  | '-' :: rest =>
    if rest ≠ [] ∧ rest.all Char.isDigit then -(digitsVal rest) else 0
  | '+' :: rest =>
    if rest ≠ [] ∧ rest.all Char.isDigit then digitsVal rest else 0
  | _ =>
    if cs ≠ [] ∧ cs.all Char.isDigit then digitsVal cs else 0

/-- versionSegments is the numeric segment list of a dotted version
string. -/
def versionSegments (v : String) : List Int :=
  (splitDots v.toList).map atoiChars

/-- cmpSegsGo is compareVersions' indexed loop over the two segment lists:
at position i compare the i-th segments, an index beyond a list's end
reading as zero (the Go code guards with i < len(parts)), returning at the
first difference; the fuel argument counts the remaining iterations up to
maxLen. -/
def cmpSegsGo (xs ys : List Int) : Nat → Nat → Int
  | 0, _ => 0
  | n + 1, i =>
    let n1 := xs.getD i 0
    let n2 := ys.getD i 0
    if n1 < n2 then -1 else if n2 < n1 then 1 else cmpSegsGo xs ys n (i + 1)

/-- cmpSegs runs the comparison loop for maxLen iterations from index 0,
exactly as the Go for-loop does. -/
def cmpSegs (xs ys : List Int) : Int :=
  cmpSegsGo xs ys (max xs.length ys.length) 0

/-- compareVersions from internal/provider/jetbrains.go: numeric,
segment-by-segment comparison of dot-separated versions; -1 when v1 < v2,
0 when equal, 1 when v1 > v2. -/
def compareVersions (v1 v2 : String) : Int :=
  cmpSegs (versionSegments v1) (versionSegments v2)

/-- lexLt is plain lexicographic character-list comparison, used only to
contrast string ordering with the numeric version comparison. -/
def lexLt : List Char → List Char → Bool
  | [], [] => false
  | [], _ :: _ => true
  | _ :: _, [] => false
  | a :: as, b :: bs =>
    if a < b then true else if b < a then false else lexLt as bs

/-- parseVersionDir models matching a directory name against the Go regexp
anchored pattern of one letter-led alphanumeric product name followed by a
version of exactly four digits, a dot, and at least one digit.  Because the
version part admits no dot beyond its own and ends the name, a name matches
exactly when it has a single dot, only digits after it, four digits just
before it, and a valid nonempty product before those; the greedy product
group therefore extends exactly to four characters before the dot. -/
def parseVersionDir (name : String) : Option (String × String) :=
  let cs := name.toList
  let pre := cs.takeWhile (fun c => c ≠ '.')
  match cs.dropWhile (fun c => c ≠ '.') with
  | [] => none
  | _ :: post =>
    if post ≠ [] ∧ post.all Char.isDigit ∧ 5 ≤ pre.length then
      let prod := pre.take (pre.length - 4)
      let d4 := pre.drop (pre.length - 4)
      if d4.all Char.isDigit && prod.all Char.isAlphanum &&
          (match prod with
           | [] => false
           | p :: _ => p.isAlpha) then
        some (String.mk prod, String.mk (d4 ++ '.' :: post))
      else none
    else none

/-- One immediate child of a JetBrains base path as os.ReadDir reports it. -/
structure DirEntry where
  name : String
  isDir : Bool
deriving DecidableEq, Repr

/-- Outcome of os.ReadDir on one base path: its entries, a does-not-exist
failure (silently skipped), or another failure (a call-level error). -/
inductive ReadDirResult where
  | ok (entries : List DirEntry)
  | errNotExist
  | err (e : GoErr)
deriving DecidableEq, Repr

/-- versionDir from internal/provider/jetbrains.go. -/
structure VersionDir where
  product : String
  version : String
  path : String
deriving DecidableEq, Repr

/-- verLe is the ascending order used to sort a product's version
directories: compareVersions at or below zero. -/
def verLe (a b : VersionDir) : Prop :=
  compareVersions a.version b.version ≤ 0

instance : DecidableRel verLe := fun a b => by
  unfold verLe; infer_instance

/-- insertVer places a version directory into an ascending list, keeping it
ascending by compareVersions. -/
def insertVer (v : VersionDir) : List VersionDir → List VersionDir
  | [] => [v]
  | w :: rest =>
    if compareVersions v.version w.version ≤ 0 then v :: w :: rest
    else w :: insertVer v rest

/-- sortVers models the sort.Slice call in findRemovableDirs: ascending by
compareVersions.  Go's sort.Slice is unstable; ties arise only between
directories whose versions compare equal, and no claim below distinguishes
their arrangement. -/
def sortVers : List VersionDir → List VersionDir
  | [] => []
  | v :: rest => insertVer v (sortVers rest)

/-- groupRemovable is the per-product step of findRemovableDirs: a product
with at most one version directory is kept whole; otherwise sort ascending
and mark every directory except the last (the highest-compared version). -/
def groupRemovable (vds : List VersionDir) : List String :=
  if vds.length ≤ 1 then []
  else ((sortVers vds).dropLast).map VersionDir.path

/-- collectVersionDirs gathers, in directory order, the version directories
under the base paths: only subdirectories whose names match the version
pattern, with the path joined as filepath.Join does.  A base path that does
not exist is skipped; any other ReadDir failure aborts the call. -/
def collectVersionDirs :
    List (String × ReadDirResult) → Except GoErr (List VersionDir)
  | [] => .ok []
  | (basePath, rd) :: rest =>
    match rd with
    | .errNotExist => collectVersionDirs rest
    | .err e => .error e
    | .ok entries =>
      match collectVersionDirs rest with
      | .error e => .error e
      | .ok tail =>
        .ok ((entries.filterMap (fun entry =>
          if entry.isDir then
            match parseVersionDir entry.name with
            | some (prod, ver) =>
              some ⟨prod, ver, basePath ++ "/" ++ entry.name⟩
            | none => none
          else none)) ++ tail)

/-- groupByProduct folds the collected version directories into per-product
groups.  Go accumulates them in a map keyed by product, preserving
per-product insertion order in each slice; iteration order over the map is
randomized, so the model fixes first-seen product order, which no claim
below distinguishes. -/
def groupByProduct (vds : List VersionDir) :
    List (String × List VersionDir) :=
  vds.foldl (fun groups vd =>
    if groups.any (fun g => g.1 = vd.product) then
      groups.map (fun g => if g.1 = vd.product then (g.1, g.2 ++ [vd]) else g)
    else groups ++ [(vd.product, [vd])]) []

/-- findRemovableDirs from internal/provider/jetbrains.go: group the
matching sibling directories by product and, for every product with more
than one version, mark all but the highest-compared version as removable. -/
def findRemovableDirs (dirs : List (String × ReadDirResult)) :
    Except GoErr (List String) :=
  match collectVersionDirs dirs with
  | .error e => .error e
  | .ok vds =>
    .ok ((groupByProduct vds).foldl (fun acc g => acc ++ groupRemovable g.2) [])

/-- succeededIn names, for specification purposes, the files of a processed
prefix whose deletion completed: all of them in a dry run, and those whose
os.Remove outcome was nil in a real run. -/
def succeededIn (dryRun : Bool) (removeErr : String → Option GoErr)
    (l : List FileInfo) : List FileInfo :=
  if dryRun then l else l.filter (fun f => (removeErr f.path).isNone)

/-- failedWarnings names, for specification purposes, the classified
warnings produced by the failed deletions of a processed prefix. -/
def failedWarnings (removeErr : String → Option GoErr)
    (l : List FileInfo) : List AccessError :=
  (l.filter (fun f => !(removeErr f.path).isNone)).map
    (fun f => ClassifyError f.path (removeErr f.path))

/-- fs100 is a one-file fixture filesystem: a single 100-byte regular file
under the root "/cache". -/
def fs100 : FS := fun r => if r = "/cache" then some (.file 100 0) else none

/-- envUnavailable is a fixture environment whose availability probe fails
(the docker daemon is down) over the fs100 filesystem. -/
def envUnavailable : CleanEnv :=
  ⟨false, fs100, fs100, fun _ => none, fun _ => ""⟩

/-- cacheProv is a fixture provider managing the "/cache" root. -/
def cacheProv : CmdProvider :=
  ⟨["/cache"], 1000, "docker system prune", .argv ["docker", "system", "prune"]⟩

theorem sumSizes_nil : sumSizes [] = 0 := rfl

theorem sumSizes_cons (f : FileInfo) (l : List FileInfo) :
    sumSizes (f :: l) = f.size + sumSizes l := by
  simp [sumSizes]

theorem sumSizes_append (a b : List FileInfo) :
    sumSizes (a ++ b) = sumSizes a + sumSizes b := by
  simp [sumSizes]

theorem insertFile_perm (f : FileInfo) :
    ∀ l : List FileInfo, (insertFile f l).Perm (f :: l)
  | [] => by simp [insertFile]
  | g :: rest => by
    unfold insertFile
    by_cases h : f.modTime ≤ g.modTime
    · simp [h]
    · simp only [if_neg h]
      exact ((insertFile_perm f rest).cons g).trans (List.Perm.swap f g rest)

theorem sortFiles_perm : ∀ l : List FileInfo, (sortFiles l).Perm l
  | [] => by simp [sortFiles]
  | f :: rest => by
    show (insertFile f (sortFiles rest)).Perm (f :: rest)
    exact (insertFile_perm f (sortFiles rest)).trans ((sortFiles_perm rest).cons f)

theorem insertFile_pairwise (f : FileInfo) :
    ∀ l : List FileInfo,
    List.Pairwise (fun a b : FileInfo => a.modTime ≤ b.modTime) l →
    List.Pairwise (fun a b : FileInfo => a.modTime ≤ b.modTime) (insertFile f l)
  | [], _ => by simp [insertFile]
  | g :: rest, h => by
    unfold insertFile
    have hg := List.pairwise_cons.mp h
    by_cases hle : f.modTime ≤ g.modTime
    · simp only [if_pos hle]
      refine List.Pairwise.cons ?_ h
      intro x hx
      rcases List.mem_cons.mp hx with rfl | hx'
      · exact hle
      · exact le_trans hle (hg.1 x hx')
    · simp only [if_neg hle]
      refine List.Pairwise.cons ?_ (insertFile_pairwise f rest hg.2)
      intro x hx
      have hx' := (insertFile_perm f rest).mem_iff.mp hx
      rcases List.mem_cons.mp hx' with rfl | hxr
      · exact le_of_not_le hle
      · exact hg.1 x hxr

theorem sortFiles_pairwise :
    ∀ l : List FileInfo,
    List.Pairwise (fun a b : FileInfo => a.modTime ≤ b.modTime) (sortFiles l)
  | [] => by simp [sortFiles]
  | f :: rest => by
    show List.Pairwise _ (insertFile f (sortFiles rest))
    exact insertFile_pairwise f (sortFiles rest) (sortFiles_pairwise rest)

theorem phaseBGo_sublist (t : Int) :
    ∀ (rem : Int) (l : List FileInfo), (phaseBGo t rem l).Sublist l
  | _, [] => by simp [phaseBGo]
  | rem, f :: fs => by
    unfold phaseBGo
    by_cases h : rem ≤ t
    · simp [h]
    · simpa [h] using (phaseBGo_sublist t (rem - f.size) fs).cons₂ f

theorem phaseBGo_eq_specGreedy (t : Int) :
    ∀ (rem : Int) (l : List FileInfo), phaseBGo t rem l = specGreedy t rem l
  | _, [] => rfl
  | rem, f :: fs => by
    unfold phaseBGo specGreedy
    by_cases h : rem ≤ t
    · simp [h]
    · simp [h, phaseBGo_eq_specGreedy t (rem - f.size) fs]

theorem runDeletions_ok (dryRun : Bool) :
    ∀ (l : List FileInfo) (i : Nat) (st : ExecState),
    runDeletions dryRun (fun _ => none) (fun _ => false) i st l
      = (⟨st.freedBytes + sumSizes l, st.deletedCount + l.length,
          st.deleteErrors,
          st.wouldLines ++ (if dryRun then l.map FileInfo.path else [])⟩, false)
  | [], i, st => by
    cases dryRun <;> simp [runDeletions, sumSizes]
  | f :: rest, i, st => by
    have IH := runDeletions_ok dryRun rest (i + 1)
    cases dryRun <;> simp [runDeletions, IH, sumSizes_cons] <;> omega

theorem runDeletions_canceled (dryRun : Bool) (removeErr : String → Option GoErr)
    (k : Nat) :
    ∀ (l : List FileInfo) (i : Nat) (st : ExecState), i ≤ k → k - i < l.length →
    runDeletions dryRun removeErr (fun n => decide (k ≤ n)) i st l
      = (⟨st.freedBytes + sumSizes (succeededIn dryRun removeErr (l.take (k - i))),
          st.deletedCount + (succeededIn dryRun removeErr (l.take (k - i))).length,
          st.deleteErrors
            ++ (if dryRun then [] else failedWarnings removeErr (l.take (k - i))),
          st.wouldLines
            ++ (if dryRun then (l.take (k - i)).map FileInfo.path else [])⟩,
         true)
  | [], i, st, _, h2 => by simp at h2
  | f :: rest, i, st, h1, h2 => by
    by_cases hk : k ≤ i
    · have h0 : k - i = 0 := by omega
      cases dryRun <;>
        simp [runDeletions, hk, h0, succeededIn, failedWarnings, sumSizes]
    · have hik : i + 1 ≤ k := by omega
      have hstep : k - i = (k - (i + 1)) + 1 := by omega
      have hlt : k - (i + 1) < rest.length := by
        simp only [List.length_cons] at h2; omega
      have IH := runDeletions_canceled dryRun removeErr k rest (i + 1)
      cases dryRun
      · rcases hrm : removeErr f.path with _ | e
        · simp only [runDeletions, hk, decide_eq_true_eq, if_false,
            Bool.false_eq_true, hrm]
          rw [IH _ hik hlt]
          simp [hstep, succeededIn, failedWarnings, sumSizes_cons, hrm]
          omega
        · simp only [runDeletions, hk, decide_eq_true_eq, if_false,
            Bool.false_eq_true, hrm]
          rw [IH _ hik hlt]
          simp [hstep, succeededIn, failedWarnings, sumSizes_cons, hrm]
      · simp only [runDeletions, hk, decide_eq_true_eq, if_false, if_true]
        rw [IH _ hik hlt]
        simp [hstep, succeededIn, failedWarnings, sumSizes_cons]
        omega

theorem toDeleteList_nil (now : Int) (opts : TrimOptions) :
    toDeleteList now opts [] = [] := by
  simp only [toDeleteList, sortFiles, phaseA, phaseBCandidates, List.filter_nil]
  split <;> simp [phaseBGo]

/-- C1: for every input file list, the set of files Trim marks for deletion
is exactly Phase A — every file whose modification time precedes
now − maxAge — plus Phase B — when the total size of the unmarked files
exceeds targetOf, the oldest unmarked files in some ascending
modification-time order, greedily until the unmarked remainder is at or
below the target or no candidates remain; and when every deletion succeeds,
freedBytes is the sum of the marked files' sizes and deletedCount their
number. -/
theorem trim_marked_set_and_accounting
    (files : List FileInfo) (warnings : List AccessError) (now : Int)
    (opts : TrimOptions) :
    (∃ cand : List FileInfo,
        cand.Perm (files.filter (fun f => !decide (f.modTime < now - opts.maxAge)))
        ∧ List.Pairwise (fun a b : FileInfo => a.modTime ≤ b.modTime) cand
        ∧ (toDeleteList now opts files).Perm
            ((files.filter (fun f => decide (f.modTime < now - opts.maxAge)))
              ++ specPhaseB (targetOf opts) cand))
    ∧ (Trim ⟨files, warnings⟩ none now opts (fun _ => none)
        (fun _ => false)).1.freedBytes = sumSizes (toDeleteList now opts files)
    ∧ (Trim ⟨files, warnings⟩ none now opts (fun _ => none)
        (fun _ => false)).1.deletedCount = (toDeleteList now opts files).length := by
  refine ⟨⟨phaseBCandidates (now - opts.maxAge) (sortFiles files), ?_, ?_, ?_⟩, ?_⟩
  · exact (sortFiles_perm files).filter _
  · exact List.Pairwise.sublist (List.filter_sublist _) (sortFiles_pairwise files)
  · have hplan : toDeleteList now opts files
        = phaseA (now - opts.maxAge) (sortFiles files)
          ++ specPhaseB (targetOf opts)
              (phaseBCandidates (now - opts.maxAge) (sortFiles files)) := by
      by_cases hr : sumSizes (phaseBCandidates (now - opts.maxAge) (sortFiles files))
          > targetOf opts
      · simp [toDeleteList, specPhaseB, hr, phaseBGo_eq_specGreedy]
      · simp [toDeleteList, specPhaseB, hr]
    rw [hplan]
    exact List.Perm.append_right _ ((sortFiles_perm files).filter _)
  · by_cases hf : files = []
    · subst hf
      simp [Trim, toDeleteList_nil, sumSizes]
    · constructor <;>
        · simp [Trim, hf, runDeletions_ok]
          cases hd : opts.dryRun <;> simp [hd]

/-- C2: the deletion plan Trim executes is globally sorted ascending by
modification time for every input order: it decomposes as the Phase-A marks
followed by the Phase-B marks, every Phase-A modification time precedes the
age cutoff, no Phase-B modification time does, and the concatenation is
pairwise ascending. -/
theorem trim_plan_sorted_oldest_first (files : List FileInfo) (now : Int)
    (opts : TrimOptions) :
    ∃ B : List FileInfo,
      toDeleteList now opts files
          = phaseA (now - opts.maxAge) (sortFiles files) ++ B
      ∧ (∀ f ∈ phaseA (now - opts.maxAge) (sortFiles files),
          f.modTime < now - opts.maxAge)
      ∧ (∀ f ∈ B, ¬ f.modTime < now - opts.maxAge)
      ∧ List.Pairwise (fun a b : FileInfo => a.modTime ≤ b.modTime)
          (toDeleteList now opts files) := by
  refine ⟨if sumSizes (phaseBCandidates (now - opts.maxAge) (sortFiles files))
      > targetOf opts then
        phaseBGo (targetOf opts)
          (sumSizes (phaseBCandidates (now - opts.maxAge) (sortFiles files)))
          (phaseBCandidates (now - opts.maxAge) (sortFiles files))
      else [], ?_, ?_, ?_, ?_⟩
  · by_cases hr : sumSizes (phaseBCandidates (now - opts.maxAge) (sortFiles files))
        > targetOf opts <;> simp [toDeleteList, hr]
  · intro f hf
    have := (List.mem_filter.mp hf).2
    simpa using this
  · intro f hf
    split at hf
    · have hmem := (phaseBGo_sublist _ _ _).subset hf
      have := (List.mem_filter.mp hmem).2
      simpa using this
    · simp at hf
  · have hA : List.Pairwise (fun a b : FileInfo => a.modTime ≤ b.modTime)
        (phaseA (now - opts.maxAge) (sortFiles files)) :=
      List.Pairwise.sublist (List.filter_sublist _) (sortFiles_pairwise files)
    have hBsub : ∀ B' ∈ [phaseBGo (targetOf opts)
        (sumSizes (phaseBCandidates (now - opts.maxAge) (sortFiles files)))
        (phaseBCandidates (now - opts.maxAge) (sortFiles files))],
        B'.Sublist (sortFiles files) := by
      intro B' hB'
      simp at hB'
      subst hB'
      exact (phaseBGo_sublist _ _ _).trans (List.filter_sublist _)
    by_cases hr : sumSizes (phaseBCandidates (now - opts.maxAge) (sortFiles files))
        > targetOf opts
    · simp only [toDeleteList, if_pos hr]
      rw [List.pairwise_append]
      refine ⟨hA, ?_, ?_⟩
      · exact List.Pairwise.sublist (hBsub _ (by simp)) (sortFiles_pairwise files)
      · intro a ha b hb
        have haLt : a.modTime < now - opts.maxAge := by
          have := (List.mem_filter.mp ha).2
          simpa using this
        have hbGe : ¬ b.modTime < now - opts.maxAge := by
          have hmem := (phaseBGo_sublist _ _ _).subset hb
          have := (List.mem_filter.mp hmem).2
          simpa using this
        exact le_trans (le_of_lt haLt) (not_lt.mp hbGe)
    · simpa [toDeleteList, hr] using hA

/-- C3: on the same fixture with no deletion failures and no cancellation, a
dry run and a real run report the same freedBytes and deletedCount, compute
the identical deletion plan (same files, same order), and the dry run's
output lists exactly that plan in order. -/
theorem trim_dry_run_parity (files : List FileInfo) (warnings : List AccessError)
    (now maxSize maxAge : Int) :
    (Trim ⟨files, warnings⟩ none now ⟨maxSize, maxAge, true⟩ (fun _ => none)
        (fun _ => false)).1.freedBytes
      = (Trim ⟨files, warnings⟩ none now ⟨maxSize, maxAge, false⟩ (fun _ => none)
        (fun _ => false)).1.freedBytes
    ∧ (Trim ⟨files, warnings⟩ none now ⟨maxSize, maxAge, true⟩ (fun _ => none)
        (fun _ => false)).1.deletedCount
      = (Trim ⟨files, warnings⟩ none now ⟨maxSize, maxAge, false⟩ (fun _ => none)
        (fun _ => false)).1.deletedCount
    ∧ toDeleteList now ⟨maxSize, maxAge, true⟩ files
        = toDeleteList now ⟨maxSize, maxAge, false⟩ files
    ∧ (files ≠ [] →
        (Trim ⟨files, warnings⟩ none now ⟨maxSize, maxAge, true⟩ (fun _ => none)
            (fun _ => false)).1.output
          = .wouldDelete
              ((toDeleteList now ⟨maxSize, maxAge, true⟩ files).map FileInfo.path)) := by
  refine ⟨?_, ?_, rfl, ?_⟩
  · by_cases hf : files = []
    · subst hf; simp [Trim]
    · simp [Trim, hf, runDeletions_ok]
      rfl
  · by_cases hf : files = []
    · subst hf; simp [Trim]
    · simp [Trim, hf, runDeletions_ok]
      rfl
  · intro hf
    simp [Trim, hf, runDeletions_ok]

theorem trim_dry_run_parity_witness :
    ([⟨0, "a", 5⟩] : List FileInfo) ≠ []
    ∧ (Trim ⟨[⟨0, "a", 5⟩], []⟩ none 10 ⟨0, 1, true⟩ (fun _ => none)
        (fun _ => false)).1.output
      = .wouldDelete ((toDeleteList 10 ⟨0, 1, true⟩ [⟨0, "a", 5⟩]).map FileInfo.path) :=
  ⟨by decide, (trim_dry_run_parity [⟨0, "a", 5⟩] [] 10 0 1).2.2.2 (by decide)⟩

/-- C4 (amended): the cancellation signal is polled before each candidate;
when it fires (from candidate k onward) Trim stops immediately and returns
the cancellation error together with the partial freedBytes and
deletedCount of the deletions that completed before the check fired; the
accumulated warnings, however, are not attached to this partial result —
the returned Errors field is empty on the cancellation path. -/
theorem trim_cancellation_result (listResult : ListResult) (now : Int)
    (opts : TrimOptions) (removeErr : String → Option GoErr) (k : Nat)
    (hk : k < (toDeleteList now opts listResult.files).length) :
    Trim listResult none now opts removeErr (fun i => decide (k ≤ i))
      = (⟨.interrupted, [],
          (succeededIn opts.dryRun removeErr
            ((toDeleteList now opts listResult.files).take k)).length,
          sumSizes (succeededIn opts.dryRun removeErr
            ((toDeleteList now opts listResult.files).take k))⟩,
         some .canceled) := by
  have hfiles : listResult.files ≠ [] := by
    intro h
    rw [h, toDeleteList_nil] at hk
    simp at hk
  have hrun := runDeletions_canceled opts.dryRun removeErr k
      (toDeleteList now opts listResult.files) 0 ⟨0, 0, listResult.warnings, []⟩
      (Nat.zero_le k) (by simpa using hk)
  simp [Trim, hfiles, hrun]

theorem trim_cancellation_result_witness :
    (0 : Nat) < (toDeleteList 1000 ⟨0, 10, false⟩ [⟨0, "f0", 100⟩]).length
    ∧ Trim ⟨[⟨0, "f0", 100⟩], []⟩ none 1000 ⟨0, 10, false⟩ (fun _ => none)
        (fun i => decide (0 ≤ i))
      = (⟨.interrupted, [],
          (succeededIn false (fun _ => none)
            ((toDeleteList 1000 ⟨0, 10, false⟩ [⟨0, "f0", 100⟩]).take 0)).length,
          sumSizes (succeededIn false (fun _ => none)
            ((toDeleteList 1000 ⟨0, 10, false⟩ [⟨0, "f0", 100⟩]).take 0))⟩,
         some .canceled) :=
  ⟨by decide,
    trim_cancellation_result ⟨[⟨0, "f0", 100⟩], []⟩ 1000 ⟨0, 10, false⟩
      (fun _ => none) 0 (by decide)⟩

/-- C4 counterexample: a fixture where the deletion of f0 fails (producing a
classified warning) and the context fires before f1.  The claim requires
the partial result to carry the accumulated warnings; Trim returns an empty
Errors slice on the cancellation path, dropping the warning for f0. -/
theorem trim_cancellation_cex :
    (Trim ⟨[⟨0, "f0", 100⟩, ⟨1, "f1", 100⟩], []⟩ none 1000 ⟨0, 10, false⟩
        (fun p => if p = "f0" then some .errPermission else none)
        (fun i => decide (1 ≤ i)))
      = (⟨.interrupted, [], 0, 0⟩, some .canceled)
    ∧ ClassifyError "f0" (some .errPermission)
        ∉ (Trim ⟨[⟨0, "f0", 100⟩, ⟨1, "f1", 100⟩], []⟩ none 1000 ⟨0, 10, false⟩
            (fun p => if p = "f0" then some .errPermission else none)
            (fun i => decide (1 ≤ i))).1.errors := by
  constructor <;> decide

/-- C6 (amended): with maxAge = 0 the cutoff takes the generic path and
equals now itself, so exactly the files whose modification time strictly
precedes the moment of the call qualify for Phase A; a file stamped at or
after the call instant does not qualify. -/
theorem trim_max_age_zero (files : List FileInfo) (now : Int) (f : FileInfo)
    (hf : f ∈ files) :
    f ∈ phaseA (now - (0 : Int)) (sortFiles files) ↔ f.modTime < now := by
  unfold phaseA
  rw [List.mem_filter]
  simp [(sortFiles_perm files).mem_iff, hf]

theorem trim_max_age_zero_witness :
    ((⟨-1, "x", 5⟩ : FileInfo) ∈ ([⟨-1, "x", 5⟩] : List FileInfo))
    ∧ ((⟨-1, "x", 5⟩ : FileInfo) ∈ phaseA ((0 : Int) - 0) (sortFiles [⟨-1, "x", 5⟩])
        ↔ (-1 : Int) < 0) :=
  ⟨by decide, trim_max_age_zero [⟨-1, "x", 5⟩] 0 ⟨-1, "x", 5⟩ (by decide)⟩

/-- C6 counterexample: with maxAge = 0 a file whose modification time equals
the moment of the call is not marked in Phase A (ModTime.Before is strict),
and the whole plan is empty, contradicting the claim that every file —
including those stamped at or after the call — qualifies. -/
theorem trim_max_age_zero_cex :
    phaseA ((0 : Int) - 0) (sortFiles [⟨0, "a", 100⟩]) = []
    ∧ toDeleteList 0 ⟨1000000, 0, false⟩ [⟨0, "a", 100⟩] = [] := by
  constructor <;> decide

theorem Walked_empty_append (w : Walked) : Walked.append Walked.empty w = w := by
  simp [Walked.append, Walked.empty]

mutual

theorem walkNode_spec (p : String) :
    ∀ n : FSNode, (walkNode p n).files = regularFilesNode p n
      ∧ (walkNode p n).size = sumSizes (regularFilesNode p n)
  | .file s m => by simp [walkNode, regularFilesNode, sumSizes]
  | .fileInfoErr e => by simp [walkNode, regularFilesNode, sumSizes]
  | .symlink s => by simp [walkNode, regularFilesNode, sumSizes, Walked.empty]
  | .dirErr e => by
    unfold walkNode regularFilesNode
    split <;> simp [Walked.empty, sumSizes]
  | .dir es => by
    have h := walkEntries_spec p es
    simpa [walkNode, regularFilesNode] using h

theorem walkEntries_spec (p : String) :
    ∀ es : FSEntries, (walkEntries p es).files = regularFilesEntries p es
      ∧ (walkEntries p es).size = sumSizes (regularFilesEntries p es)
  | .nil => by simp [walkEntries, regularFilesEntries, sumSizes, Walked.empty]
  | .cons name node rest => by
    have h1 := walkNode_spec (p ++ "/" ++ name) node
    have h2 := walkEntries_spec p rest
    simp [walkEntries, regularFilesEntries, Walked.append, h1.1, h1.2, h2.1,
      h2.2, sumSizes_append]

end

theorem scanRoots_spec (fs : FS) :
    ∀ paths : List String,
    (scanRoots fs paths).files = regularFilesRoots fs paths
      ∧ (scanRoots fs paths).size = sumSizes (regularFilesRoots fs paths)
  | [] => by simp [scanRoots, regularFilesRoots, Walked.empty, sumSizes]
  | r :: rest => by
    have h := scanRoots_spec fs rest
    unfold scanRoots regularFilesRoots walkRoot
    cases hres : fs r with
    | none =>
      simp [Walked.append, Walked.empty, h.1, h.2]
    | some n =>
      have hn := walkNode_spec r n
      simp [Walked.append, hn.1, hn.2, h.1, h.2, sumSizes_append]

/-- C8: directories and symbolic links never appear in the file set of
ListFiles and never contribute to the byte count of CalculateSize: both
results are exactly those of the specification-side regular-file collector
(whose only producing constructor is a regular file), and a symlink node
contributes the empty walk regardless of its target's size, since the walk
discards a symlink before reading any size or metadata. -/
theorem scanner_excludes_dirs_and_symlinks (fs : FS) (paths : List String) :
    (ListFiles fs paths).files = regularFilesRoots fs paths
    ∧ (CalculateSize fs paths).size = sumSizes (regularFilesRoots fs paths)
    ∧ ∀ (p : String) (s s' : Int),
        walkNode p (.symlink s) = Walked.empty
        ∧ walkNode p (.symlink s) = walkNode p (.symlink s') := by
  refine ⟨(scanRoots_spec fs paths).1, (scanRoots_spec fs paths).2, ?_⟩
  intro p s s'
  exact ⟨rfl, rfl⟩

/-- C7: a root path that does not exist contributes zero bytes, zero files
and no warning to CalculateSize and ListFiles, while a directory that
exists but is inaccessible mid-traversal produces a classified warning and
neither aborts the walk nor silently drops the entry: its siblings'
contributions are untouched and the warning is prepended to theirs. -/
theorem scanner_missing_root_and_inaccessible
    (fs : FS) (paths : List String) (r p name : String)
    (rest : FSEntries) (e : GoErr) (hr : fs r = none) (he : e ≠ .errNotExist) :
    CalculateSize fs (r :: paths) = CalculateSize fs paths
    ∧ ListFiles fs (r :: paths) = ListFiles fs paths
    ∧ walkNode p (.dir (.cons name (.dirErr e) rest))
        = ⟨(walkEntries p rest).size, (walkEntries p rest).files,
           ClassifyError (p ++ "/" ++ name) (some e)
             :: (walkEntries p rest).warnings⟩ := by
  have hwr : walkRoot fs r = Walked.empty := by simp [walkRoot, hr]
  have hscan : scanRoots fs (r :: paths) = scanRoots fs paths := by
    show Walked.append (walkRoot fs r) (scanRoots fs paths) = scanRoots fs paths
    rw [hwr]
    exact Walked_empty_append _
  refine ⟨?_, ?_, ?_⟩
  · simp [CalculateSize, hscan]
  · simp [ListFiles, hscan]
  · show Walked.append (walkNode (p ++ "/" ++ name) (.dirErr e))
        (walkEntries p rest) = _
    unfold walkNode
    rw [if_neg he]
    simp [Walked.append]

theorem scanner_missing_root_witness :
    CalculateSize (fun _ => none) ["gone"] = CalculateSize (fun _ => none) []
    ∧ walkNode "root" (.dir (.cons "locked" (.dirErr .errPermission) .nil))
        = ⟨(walkEntries "root" FSEntries.nil).size,
           (walkEntries "root" FSEntries.nil).files,
           ClassifyError ("root" ++ "/" ++ "locked") (some .errPermission)
             :: (walkEntries "root" FSEntries.nil).warnings⟩ :=
  ⟨(scanner_missing_root_and_inaccessible (fun _ => none) [] "gone" "root"
      "locked" .nil .errPermission rfl (by decide)).1,
   (scanner_missing_root_and_inaccessible (fun _ => none) [] "gone" "root"
      "locked" .nil .errPermission rfl (by decide)).2.2⟩

/-- C5 (amended): the daemon-gated provider's Clean runs the availability
check first and, when the daemon is unavailable, returns the neutral
"docker not available" result with a nil error before attempting any
cleaning; its CurrentSize, however, is inherited unchanged from the base
provider and performs no availability check — it computes the aggregate
filesystem size regardless of availability (the orchestrator checks
Available itself and skips the size scan of an unavailable provider). -/
theorem docker_unavailable_clean_neutral (env : CleanEnv) (p : CmdProvider)
    (opts : CleanOptions) (h : env.available = false) :
    dockerClean env p opts = (⟨"docker not available", 0, 0⟩, none)
    ∧ ∀ env' : CleanEnv, env'.fsBefore = env.fsBefore →
        dockerCurrentSize env' p = dockerCurrentSize env p := by
  constructor
  · simp [dockerClean, h]
  · intro env' he
    simp [dockerCurrentSize, he]

theorem docker_unavailable_witness :
    dockerClean envUnavailable cacheProv ⟨false, .full⟩
      = (⟨"docker not available", 0, 0⟩, none)
    ∧ dockerCurrentSize ⟨true, fs100, fs100, fun _ => none, fun _ => ""⟩ cacheProv
        = dockerCurrentSize envUnavailable cacheProv :=
  ⟨(docker_unavailable_clean_neutral envUnavailable cacheProv ⟨false, .full⟩ rfl).1,
   (docker_unavailable_clean_neutral envUnavailable cacheProv ⟨false, .full⟩ rfl).2
      ⟨true, fs100, fs100, fun _ => none, fun _ => ""⟩ rfl⟩

/-- C5 counterexample: with the daemon unavailable over a filesystem holding
one 100-byte file, CurrentSize returns 100 — the size computed exactly as
if the provider were usable — rather than reporting the provider unusable;
no availability check occurs anywhere in the size path, contradicting the
claim that every operation first calls the availability check. -/
theorem docker_size_cex :
    envUnavailable.available = false
    ∧ dockerCurrentSize envUnavailable cacheProv = 100
    ∧ CurrentSize fs100 ["/cache"] = 100 := by
  refine ⟨rfl, by decide, by decide⟩

/-- C10: for every command-backed or daemon-gated full clean — and the
daemon-gated smart clean — that is not a dry run, parses to a nonempty argv
and runs the external command successfully, the reported BytesCleaned is
max(0, sizeBefore − sizeAfter): the size delta is clamped at zero even when
the cache grows during the external command's run. -/
theorem clean_size_delta_clamped (env : CleanEnv) (p : CmdProvider)
    (opts : CleanOptions) (parts : List String)
    (hdry : opts.dryRun = false) (hparse : p.parsedCleanCmd = .argv parts)
    (hne : parts ≠ []) (hok : env.runErr parts = none)
    (hsmart : env.runErr (dockerSmartCmd p) = none) :
    (commandFullClean env p opts).1.bytesCleaned
        = max 0 (CurrentSize env.fsBefore p.paths - CurrentSize env.fsAfter p.paths)
    ∧ (dockerFullClean env p opts).1.bytesCleaned
        = max 0 (CurrentSize env.fsBefore p.paths - CurrentSize env.fsAfter p.paths)
    ∧ (dockerSmartClean env p opts).1.bytesCleaned
        = max 0 (CurrentSize env.fsBefore p.paths - CurrentSize env.fsAfter p.paths) := by
  cases parts with
  | nil => exact absurd rfl hne
  | cons q qs =>
    refine ⟨?_, ?_, ?_⟩
    · simp only [commandFullClean, hdry, hparse, hok, if_false, Bool.false_eq_true]
      split <;> omega
    · simp only [dockerFullClean, hdry, hparse, hok, if_false, Bool.false_eq_true]
      split <;> omega
    · simp only [dockerSmartClean, hdry, hsmart, if_false, Bool.false_eq_true]
      split <;> omega

theorem clean_size_delta_witness :
    (commandFullClean ⟨true, fs100, fun _ => none, fun _ => none, fun _ => ""⟩
        cacheProv ⟨false, .full⟩).1.bytesCleaned
      = max 0 (CurrentSize fs100 ["/cache"] - CurrentSize (fun _ => none) ["/cache"])
    ∧ (dockerFullClean ⟨true, fs100, fun _ => none, fun _ => none, fun _ => ""⟩
        cacheProv ⟨false, .full⟩).1.bytesCleaned
      = max 0 (CurrentSize fs100 ["/cache"] - CurrentSize (fun _ => none) ["/cache"])
    ∧ (dockerSmartClean ⟨true, fs100, fun _ => none, fun _ => none, fun _ => ""⟩
        cacheProv ⟨false, .full⟩).1.bytesCleaned
      = max 0 (CurrentSize fs100 ["/cache"] - CurrentSize (fun _ => none) ["/cache"]) :=
  clean_size_delta_clamped ⟨true, fs100, fun _ => none, fun _ => none, fun _ => ""⟩
    cacheProv ⟨false, .full⟩ ["docker", "system", "prune"] rfl rfl (by decide)
    rfl rfl

theorem cmpSegsGo_beyond (xs ys : List Int) :
    ∀ (n i : Nat), xs.length ≤ i → ys.length ≤ i → cmpSegsGo xs ys n i = 0
  | 0, _, _, _ => rfl
  | n + 1, i, hx, hy => by
    have h1 : xs.getD i 0 = 0 := by
      simp [List.getD_eq_getElem?_getD, List.getElem?_eq_none hx]
    have h2 : ys.getD i 0 = 0 := by
      simp [List.getD_eq_getElem?_getD, List.getElem?_eq_none hy]
    simp only [cmpSegsGo, h1, h2, lt_irrefl, if_false]
    exact cmpSegsGo_beyond xs ys n (i + 1) (by omega) (by omega)

theorem cmpSegsGo_stable (xs ys : List Int) :
    ∀ (n m i : Nat), xs.length ≤ i + n → ys.length ≤ i + n →
      xs.length ≤ i + m → ys.length ≤ i + m →
      cmpSegsGo xs ys n i = cmpSegsGo xs ys m i
  | 0, m, i, h1, h2, h3, h4 => by
    rw [cmpSegsGo_beyond xs ys m i (by omega) (by omega)]
    rfl
  | n + 1, 0, i, h1, h2, h3, h4 => by
    rw [cmpSegsGo_beyond xs ys (n + 1) i (by omega) (by omega)]
    rfl
  | n + 1, m + 1, i, h1, h2, h3, h4 => by
    simp only [cmpSegsGo]
    split_ifs <;>
      first
        | rfl
        | exact cmpSegsGo_stable xs ys n m (i + 1) (by omega) (by omega)
            (by omega) (by omega)

theorem cmpSegsGo_self (xs : List Int) : ∀ (n i : Nat), cmpSegsGo xs xs n i = 0
  | 0, _ => rfl
  | n + 1, i => by simp [cmpSegsGo, lt_irrefl, cmpSegsGo_self xs n (i + 1)]

theorem cmpSegsGo_neg (xs ys : List Int) :
    ∀ (n i : Nat), cmpSegsGo xs ys n i = -cmpSegsGo ys xs n i
  | 0, _ => by simp [cmpSegsGo]
  | n + 1, i => by
    simp only [cmpSegsGo]
    split_ifs <;> first | omega | exact cmpSegsGo_neg xs ys n (i + 1)

theorem cmpSegsGo_trans (xs ys zs : List Int) :
    ∀ (n i : Nat), cmpSegsGo xs ys n i ≤ 0 → cmpSegsGo ys zs n i ≤ 0 →
      cmpSegsGo xs zs n i ≤ 0
  | 0, i, _, _ => by simp [cmpSegsGo]
  | n + 1, i, h1, h2 => by
    simp only [cmpSegsGo] at h1 h2 ⊢
    split_ifs at h1 h2 ⊢ <;>
      first | omega | exact cmpSegsGo_trans xs ys zs n (i + 1) h1 h2

theorem cmpSegs_self (xs : List Int) : cmpSegs xs xs = 0 :=
  cmpSegsGo_self xs _ 0

theorem cmpSegs_neg (xs ys : List Int) : cmpSegs xs ys = -cmpSegs ys xs := by
  unfold cmpSegs
  rw [Nat.max_comm ys.length xs.length]
  exact cmpSegsGo_neg xs ys _ 0

theorem cmpSegs_trans (xs ys zs : List Int)
    (h1 : cmpSegs xs ys ≤ 0) (h2 : cmpSegs ys zs ≤ 0) : cmpSegs xs zs ≤ 0 := by
  unfold cmpSegs at h1 h2 ⊢
  rw [cmpSegsGo_stable xs ys (max xs.length ys.length)
      (max xs.length (max ys.length zs.length)) 0 (by omega) (by omega)
      (by omega) (by omega)] at h1
  rw [cmpSegsGo_stable ys zs (max ys.length zs.length)
      (max xs.length (max ys.length zs.length)) 0 (by omega) (by omega)
      (by omega) (by omega)] at h2
  rw [cmpSegsGo_stable xs zs (max xs.length zs.length)
      (max xs.length (max ys.length zs.length)) 0 (by omega) (by omega)
      (by omega) (by omega)]
  exact cmpSegsGo_trans xs ys zs _ 0 h1 h2

theorem verLe_refl (a : VersionDir) : verLe a a := by
  show cmpSegs _ _ ≤ 0
  rw [cmpSegs_self]

theorem verLe_total (a b : VersionDir) (h : ¬ verLe a b) : verLe b a := by
  show cmpSegs _ _ ≤ 0
  rw [cmpSegs_neg]
  unfold verLe compareVersions at h
  omega

theorem verLe_trans {a b c : VersionDir} (h1 : verLe a b) (h2 : verLe b c) :
    verLe a c :=
  cmpSegs_trans _ _ _ h1 h2

theorem insertVer_perm (v : VersionDir) :
    ∀ l : List VersionDir, (insertVer v l).Perm (v :: l)
  | [] => by simp [insertVer]
  | w :: rest => by
    unfold insertVer
    by_cases h : compareVersions v.version w.version ≤ 0
    · simp [h]
    · simp only [if_neg h]
      exact ((insertVer_perm v rest).cons w).trans (List.Perm.swap v w rest)

theorem sortVers_perm : ∀ l : List VersionDir, (sortVers l).Perm l
  | [] => by simp [sortVers]
  | v :: rest => by
    show (insertVer v (sortVers rest)).Perm (v :: rest)
    exact (insertVer_perm v (sortVers rest)).trans ((sortVers_perm rest).cons v)

theorem insertVer_pairwise (v : VersionDir) :
    ∀ l : List VersionDir,
    List.Pairwise verLe l → List.Pairwise verLe (insertVer v l)
  | [], _ => by simp [insertVer]
  | w :: rest, h => by
    unfold insertVer
    have hw := List.pairwise_cons.mp h
    by_cases hle : compareVersions v.version w.version ≤ 0
    · simp only [if_pos hle]
      refine List.Pairwise.cons ?_ h
      intro x hx
      rcases List.mem_cons.mp hx with rfl | hx'
      · exact hle
      · exact verLe_trans hle (hw.1 x hx')
    · simp only [if_neg hle]
      refine List.Pairwise.cons ?_ (insertVer_pairwise v rest hw.2)
      intro x hx
      have hx' := (insertVer_perm v rest).mem_iff.mp hx
      rcases List.mem_cons.mp hx' with rfl | hxr
      · exact verLe_total _ w hle
      · exact hw.1 x hxr

theorem sortVers_pairwise : ∀ l : List VersionDir, List.Pairwise verLe (sortVers l)
  | [] => by simp [sortVers]
  | v :: rest => by
    show List.Pairwise _ (insertVer v (sortVers rest))
    exact insertVer_pairwise v (sortVers rest) (sortVers_pairwise rest)

theorem getLast?_mem_vers :
    ∀ (l : List VersionDir) (m : VersionDir), l.getLast? = some m → m ∈ l
  | [], _, h => by simp at h
  | [a], m, h => by
    simp at h
    simp [h]
  | _ :: b :: t, m, h => by
    rw [List.getLast?_cons_cons] at h
    exact List.mem_cons_of_mem _ (getLast?_mem_vers (b :: t) m h)

theorem pairwise_verLe_getLast :
    ∀ (l : List VersionDir) (m : VersionDir),
    List.Pairwise verLe l → l.getLast? = some m → ∀ v ∈ l, verLe v m
  | [], _, _, hlast => by simp at hlast
  | [a], m, _, hlast => by
    simp at hlast
    subst hlast
    intro v hv
    simp at hv
    subst hv
    exact verLe_refl _
  | a :: b :: t, m, h, hlast => by
    rw [List.getLast?_cons_cons] at hlast
    have hp := List.pairwise_cons.mp h
    have IH := pairwise_verLe_getLast (b :: t) m hp.2 hlast
    intro v hv
    rcases List.mem_cons.mp hv with rfl | hv'
    · exact hp.1 m (getLast?_mem_vers (b :: t) m hlast)
    · exact IH v hv'

theorem sortVers_last_max (vds : List VersionDir) (m : VersionDir)
    (h : (sortVers vds).getLast? = some m) :
    ∀ v ∈ vds, compareVersions v.version m.version ≤ 0 := by
  intro v hv
  exact pairwise_verLe_getLast (sortVers vds) m (sortVers_pairwise vds) h v
    ((sortVers_perm vds).mem_iff.mpr hv)

/-- C9: compareVersions compares dot-segmented versions numerically segment
by segment — 2023.10 exceeds 2023.3 even though the lexicographic string
order says otherwise — with missing segments reading as zero; on the
sibling directories Tool2023.1, Tool2023.3, Tool2023.10 exactly the first
two are marked removable; and in general the per-product marking keeps
exactly the last entry of the ascending sort, which compares at or above
every version directory of its product. -/
theorem jetbrains_version_pruning :
    (compareVersions "2023.10" "2023.3" = 1
      ∧ lexLt "2023.10".toList "2023.3".toList = true)
    ∧ compareVersions "2023" "2023.0" = 0
    ∧ findRemovableDirs [("r", .ok [⟨"Tool2023.1", true⟩, ⟨"Tool2023.3", true⟩,
        ⟨"Tool2023.10", true⟩])] = .ok ["r/Tool2023.1", "r/Tool2023.3"]
    ∧ ∀ (vds : List VersionDir) (m : VersionDir),
        (sortVers vds).getLast? = some m →
        (∀ v ∈ vds, compareVersions v.version m.version ≤ 0)
        ∧ (2 ≤ vds.length →
            groupRemovable vds = ((sortVers vds).dropLast).map VersionDir.path) := by
  refine ⟨⟨by decide, by decide⟩, by decide, rfl, ?_⟩
  intro vds m hm
  refine ⟨sortVers_last_max vds m hm, ?_⟩
  intro h2
  unfold groupRemovable
  rw [if_neg (by omega)]

theorem jetbrains_version_pruning_witness :
    compareVersions "2023.3" "2023.10" ≤ 0
    ∧ groupRemovable [⟨"Tool", "2023.1", "r/Tool2023.1"⟩,
        ⟨"Tool", "2023.3", "r/Tool2023.3"⟩, ⟨"Tool", "2023.10", "r/Tool2023.10"⟩]
      = ((sortVers [⟨"Tool", "2023.1", "r/Tool2023.1"⟩,
          ⟨"Tool", "2023.3", "r/Tool2023.3"⟩,
          ⟨"Tool", "2023.10", "r/Tool2023.10"⟩]).dropLast).map VersionDir.path :=
  ⟨(jetbrains_version_pruning.2.2.2
      [⟨"Tool", "2023.1", "r/Tool2023.1"⟩, ⟨"Tool", "2023.3", "r/Tool2023.3"⟩,
        ⟨"Tool", "2023.10", "r/Tool2023.10"⟩]
      ⟨"Tool", "2023.10", "r/Tool2023.10"⟩ (by decide)).1
      ⟨"Tool", "2023.3", "r/Tool2023.3"⟩ (by decide),
   (jetbrains_version_pruning.2.2.2
      [⟨"Tool", "2023.1", "r/Tool2023.1"⟩, ⟨"Tool", "2023.3", "r/Tool2023.3"⟩,
        ⟨"Tool", "2023.10", "r/Tool2023.10"⟩]
      ⟨"Tool", "2023.10", "r/Tool2023.10"⟩ (by decide)).2 (by decide)⟩

end CacheBuster
